import Mathlib

/-!
Verification of the Small-World Simulator core (graph builder + breadth-first
spread engine) against its specification.

The traversal functions `bfs_generator` and `bfs_spread` are shallow embeddings
of the Python functions of the same names in `app.py`.  A graph is represented
by its node count `N` (nodes are `0, …, N-1`, as produced by the builder) and a
neighbor-list function `adj`; the neighbor lists are bounded by `N`, which makes
the traversals terminate on the fuel `N + 1` (a breadth-first traversal dequeues
every discovered node exactly once, and at most `N + 1` nodes can be discovered).

The graph builder (`build`) is called in `app.py` via the external library
function `nx.watts_strogatz_graph`, whose code is not part of the repository;
it is modelled from the specification (section 4.1), as are the failure
behaviours of the neighbor-lookup on a node that is not in the graph
(`nbrE`, specification section 7).
-/

namespace SmallWorld

/-- Unordered edge between two nodes, normalised as a sorted pair. -/
def epair (a b : ℕ) : ℕ × ℕ := if a ≤ b then (a, b) else (b, a)

/-- A finite undirected simple graph on nodes `0, …, N-1`, presented through
its neighbor-list function (the iteration order of `G.neighbors(node)` in the
source is the order of the list `adj node`). -/
structure Graph where
  N : ℕ
  adj : ℕ → List ℕ
  adj_lt : ∀ i j, j ∈ adj i → j < N

/-- The inner `for neighbor in G.neighbors(node)` loop of both traversals:
each not-yet-visited neighbor is added to the visited set and appended to
the FIFO queue. -/
def discover (visited : Finset ℕ) (queue : List ℕ) : List ℕ → Finset ℕ × List ℕ
  | [] => (visited, queue)
  | n :: ns =>
      if n ∈ visited then discover visited queue ns
      else discover (insert n visited) (queue ++ [n]) ns

/-- The loop of `bfs_generator`, with explicit fuel: each iteration pops the
head of the queue, discovers its unvisited neighbors and yields a copy of the
visited set. -/
def bfsGenAux (G : Graph) : ℕ → Finset ℕ → List ℕ → List (Finset ℕ)
  | 0, _, _ => []
  | fuel + 1, visited, queue =>
      match queue with
      | [] => []
      | node :: rest =>
          let p := discover visited rest (G.adj node)
          p.1 :: bfsGenAux G fuel p.1 p.2

/-- `bfs_generator(G, start)` from `app.py`: the list of visited-set snapshots,
one per dequeued node.  The fuel `G.N + 1` is sufficient for the queue to
drain completely (proved below). -/
def bfs_generator (G : Graph) (start : ℕ) : List (Finset ℕ) :=
  bfsGenAux G (G.N + 1) {start} [start]

/-- The inner neighbor loop of `bfs_spread`: the queue carries node/depth
pairs, newly discovered nodes are enqueued at depth `depth + 1`. -/
def discoverD (visited : Finset ℕ) (queue : List (ℕ × ℕ)) (depth : ℕ) :
    List ℕ → Finset ℕ × List (ℕ × ℕ)
  | [] => (visited, queue)
  | n :: ns =>
      if n ∈ visited then discoverD visited queue depth ns
      else discoverD (insert n visited) (queue ++ [(n, depth + 1)]) depth ns

/-- `levels[depth] = levels.get(depth, 0) + 1` on an insertion-ordered
association list (Python dict semantics; keys are unique in every reachable
state, and a missing key is appended at the end). -/
def bumpLevel : List (ℕ × ℕ) → ℕ → List (ℕ × ℕ)
  | [], d => [(d, 1)]
  | kv :: rest, d =>
      if kv.1 = d then (kv.1, kv.2 + 1) :: rest
      else kv :: bumpLevel rest d

/-- The loop of `bfs_spread`, with explicit fuel: each iteration pops a
node/depth pair, counts the node at its depth, and enqueues the unvisited
neighbors one level deeper. -/
def bfsSpreadAux (G : Graph) : ℕ → Finset ℕ → List (ℕ × ℕ) → List (ℕ × ℕ) → List (ℕ × ℕ)
  | 0, _, _, levels => levels
  | fuel + 1, visited, queue, levels =>
      match queue with
      | [] => levels
      | (node, depth) :: rest =>
          let levels2 := bumpLevel levels depth
          let p := discoverD visited rest depth (G.adj node)
          bfsSpreadAux G fuel p.1 p.2 levels2

/-- `bfs_spread(G)` from `app.py`: the depth → count histogram of the
breadth-first traversal started at node `0`, as an insertion-ordered
association list. -/
def bfs_spread (G : Graph) : List (ℕ × ℕ) :=
  bfsSpreadAux G (G.N + 1) {0} [(0, 0)] []

/-- Total of all per-depth counts of a histogram. -/
def levelsTotal (levels : List (ℕ × ℕ)) : ℕ :=
  (levels.map Prod.snd).sum

/-- The dequeue trace of the (shared) breadth-first traversal: the sequence of
node/depth pairs in the order in which they are popped from the queue.  One
trace entry corresponds to one yielded snapshot of `bfs_generator` and to one
histogram increment of `bfs_spread`. -/
def bfsTraceAux (G : Graph) : ℕ → Finset ℕ → List (ℕ × ℕ) → List (ℕ × ℕ)
  | 0, _, _ => []
  | fuel + 1, visited, queue =>
      match queue with
      | [] => []
      | (node, depth) :: rest =>
          let p := discoverD visited rest depth (G.adj node)
          (node, depth) :: bfsTraceAux G fuel p.1 p.2

/-- Dequeue trace of the traversal of `G` started at `start`. -/
def bfsTrace (G : Graph) (start : ℕ) : List (ℕ × ℕ) :=
  bfsTraceAux G (G.N + 1) {start} [(start, 0)]

/-- The final cumulative visited set yielded by `bfs_generator` (the last
snapshot of the stream; the stream is never empty). -/
def finalVisited (G : Graph) (start : ℕ) : Finset ℕ :=
  (bfs_generator G start).getLastD ∅

/-! ### The graph builder, modelled from the specification -/

/-- Modelled from the spec: configuration of the Watts–Strogatz builder
(section 3, `RewireConfig`). -/
structure RewireConfig where
  population : ℕ
  baseDegree : ℕ
  rewireProbability : ℚ

/-- Modelled from the spec: error taxonomy of the builder (section 7). -/
inductive BuildError where
  | InvalidParameter (field : String)
deriving DecidableEq

/-- Modelled from the spec: a caller-seeded random source (section 4.1 and
design note): a stream of draws in `[0, 1)` deciding whether each edge is
rewired, and for each edge a bounded list of candidate replacement endpoints. -/
structure RandSource where
  draw : ℕ → ℚ
  draw_nonneg : ∀ n, 0 ≤ draw n
  draw_lt_one : ∀ n, draw n < 1
  cand : ℕ → List ℕ

/-- The graph produced by the builder: node count plus the set of normalised
undirected edges. -/
structure BGraph where
  N : ℕ
  edges : Finset (ℕ × ℕ)
deriving DecidableEq

/-- Modelled from the spec: parameter validation of `build` (section 4.1);
violating a constraint produces an `InvalidParameter` error naming the
offending field. -/
def validate (c : RewireConfig) : Option BuildError :=
  if ¬ (4 ≤ c.population) then some (BuildError.InvalidParameter "population")
  else if ¬ (2 ∣ c.baseDegree ∧ 2 ≤ c.baseDegree ∧ c.baseDegree < c.population)
    then some (BuildError.InvalidParameter "baseDegree")
  else if ¬ (0 ≤ c.rewireProbability ∧ c.rewireProbability ≤ 1)
    then some (BuildError.InvalidParameter "rewireProbability")
  else none

/-- Modelled from the spec: the ring-lattice edges, node `i` connected to its
`baseDegree / 2` nearest nodes on each side (section 4.1, ring phase).  The
edge joining `i` to `(i + j + 1) % n` ranges over all ring-distance classes
`j + 1 ∈ {1, …, k/2}` and all nodes `i`. -/
def ringEdges (n k : ℕ) : Finset (ℕ × ℕ) :=
  ((Finset.range (k / 2)) ×ˢ (Finset.range n)).image
    (fun ji => epair ji.2 ((ji.2 + (ji.1 + 1)) % n))

/-- Modelled from the spec: the deterministic edge-processing order of the
rewiring phase — by increasing ring-distance class, then by node index. -/
def ringEdgeList (n k : ℕ) : List (ℕ × ℕ) :=
  (List.range (k / 2)).flatMap
    (fun j => (List.range n).map (fun i => (i, (i + (j + 1)) % n)))

/-- Modelled from the spec: rewiring of a single (present) edge `uv`
(section 4.1, rewiring phase).  With probability `p` — i.e. when the draw in
`[0,1)` is below `p` — the far endpoint is replaced by the first candidate
that is neither the near endpoint nor already adjacent to it; if no candidate
is valid within the bounded attempt list, the edge is left unrewired. -/
def rewireStep (p : ℚ) (E : Finset (ℕ × ℕ)) (uv : ℕ × ℕ) (draw : ℚ)
    (cands : List ℕ) : Finset (ℕ × ℕ) :=
  if draw < p ∧ epair uv.1 uv.2 ∈ E then
    match cands.find? (fun w => decide (w ≠ uv.1 ∧ epair uv.1 w ∉ E)) with
    | some w => insert (epair uv.1 w) (E.erase (epair uv.1 uv.2))
    | none => E
  else E

/-- Modelled from the spec: `build(config, randomSource)` (section 4.1) —
validate the configuration, lay down the ring lattice, then rewire each edge
independently in the deterministic processing order. -/
def build (c : RewireConfig) (rs : RandSource) : Except BuildError BGraph :=
  match validate c with
  | some err => Except.error err
  | none =>
      Except.ok ⟨c.population,
        ((ringEdgeList c.population c.baseDegree).enum).foldl
          (fun E iuv => rewireStep c.rewireProbability E iuv.2 (rs.draw iuv.1) (rs.cand iuv.1))
          (ringEdges c.population c.baseDegree)⟩

/-- Neighbors of `i` in a built graph, in ascending node-id order (the fixed
neighbor iteration order required by the specification, section 4.2). -/
def BGraph.nbrList (g : BGraph) (i : ℕ) : List ℕ :=
  (List.range g.N).filter (fun m => decide (epair i m ∈ g.edges))

/-- View of a built graph as a traversal graph. -/
def BGraph.toGraph (g : BGraph) : Graph :=
  ⟨g.N, fun i => g.nbrList i, by
    intro i j h
    have h' := List.mem_filter.mp h
    exact List.mem_range.mp h'.1⟩

/-- Neighbor set of `i` in a built graph. -/
def BGraph.nbrFinset (g : BGraph) (i : ℕ) : Finset ℕ :=
  (Finset.range g.N).filter (fun m => epair i m ∈ g.edges)

/-! ### Fallible traversals, for the empty-graph defensive behaviour

Modelled from the spec: the neighbor query `G.neighbors(node)` is provided by
the external graph library, whose code is not in the repository; per the
specification (section 7, `EmptyGraph`), querying a node that is not in the
graph fails, and the traversal contracts propagate that failure instead of
returning an empty result. -/

/-- Modelled from the spec: neighbor lookup that fails on a node outside the
graph. -/
def nbrE (g : BGraph) (i : ℕ) : Except String (List ℕ) :=
  if i < g.N then Except.ok (g.nbrList i) else Except.error "node not in graph"

/-- `bfs_generator` with the fallible neighbor lookup. -/
def bfsGenAuxE (g : BGraph) : ℕ → Finset ℕ → List ℕ → Except String (List (Finset ℕ))
  | 0, _, _ => Except.ok []
  | fuel + 1, visited, queue =>
      match queue with
      | [] => Except.ok []
      | node :: rest =>
          match nbrE g node with
          | Except.error s => Except.error s
          | Except.ok l =>
              let p := discover visited rest l
              match bfsGenAuxE g fuel p.1 p.2 with
              | Except.error s => Except.error s
              | Except.ok L => Except.ok (p.1 :: L)

/-- Fallible `bfs_generator(g, start)`. -/
def bfs_generatorE (g : BGraph) (start : ℕ) : Except String (List (Finset ℕ)) :=
  bfsGenAuxE g (g.N + 1) {start} [start]

/-- `bfs_spread` with the fallible neighbor lookup. -/
def bfsSpreadAuxE (g : BGraph) : ℕ → Finset ℕ → List (ℕ × ℕ) → List (ℕ × ℕ) →
    Except String (List (ℕ × ℕ))
  | 0, _, _, levels => Except.ok levels
  | fuel + 1, visited, queue, levels =>
      match queue with
      | [] => Except.ok levels
      | (node, depth) :: rest =>
          match nbrE g node with
          | Except.error s => Except.error s
          | Except.ok l =>
              bfsSpreadAuxE g fuel (discoverD visited rest depth l).1
                (discoverD visited rest depth l).2 (bumpLevel levels depth)

/-- Fallible `bfs_spread(g)` (start node fixed at `0`, as in the source). -/
def bfs_spreadE (g : BGraph) : Except String (List (ℕ × ℕ)) :=
  bfsSpreadAuxE g (g.N + 1) {0} [(0, 0)] []

/-! ### Concrete objects used by witnesses and counterexamples -/

/-- A star graph on three nodes: node 0 adjacent to nodes 1 and 2. -/
def starG : Graph :=
  ⟨3, fun i => match i with | 0 => [1, 2] | 1 => [0] | 2 => [0] | _ => [], by
    intro i j h
    rcases i with _ | _ | _ | i <;> simp at h <;> omega⟩

/-- A path graph on two nodes. -/
def pathG2 : Graph :=
  ⟨2, fun i => match i with | 0 => [1] | 1 => [0] | _ => [], by
    intro i j h
    rcases i with _ | _ | i <;> simp at h <;> omega⟩

/-- The smallest valid configuration, with rewiring probability 0. -/
def cfg0 : RewireConfig := ⟨4, 2, 0⟩

/-- The invalid configuration of the specification's invalid scenario:
population 10, odd base degree 3. -/
def cfgOdd : RewireConfig := ⟨10, 3, 1 / 2⟩

/-- A trivial random source: every draw is 0, every candidate list empty. -/
def rs0 : RandSource :=
  ⟨fun _ => 0, fun _ => le_refl 0, fun _ => by norm_num, fun _ => []⟩

/-- The ring lattice on 4 nodes with base degree 2, as a built graph. -/
def g0 : BGraph := ⟨4, ringEdges 4 2⟩

/-- The empty graph (population 0). -/
def gEmpty : BGraph := ⟨0, ∅⟩

instance {α β : Type} [DecidableEq α] [DecidableEq β] : DecidableEq (Except α β) := fun x y =>
  match x, y with
  | Except.error a, Except.error b => decidable_of_iff (a = b) (by simp)
  | Except.error _, Except.ok _ => isFalse (by simp)
  | Except.ok _, Except.error _ => isFalse (by simp)
  | Except.ok a, Except.ok b => decidable_of_iff (a = b) (by simp)

/-! ### Basic lemmas -/

theorem epair_comm (a b : ℕ) : epair a b = epair b a := by
  unfold epair; split_ifs <;> simp [Prod.ext_iff] <;> omega

theorem epair_eq_iff {a b c d : ℕ} :
    epair a b = epair c d ↔ (a = c ∧ b = d) ∨ (a = d ∧ b = c) := by
  unfold epair; split_ifs <;> simp [Prod.ext_iff] <;> omega

theorem add_mod_inj {n i a b : ℕ} (ha : a < n) (hb : b < n)
    (h : (i + a) % n = (i + b) % n) : a = b := by
  have h1 : (i + a) ≡ (i + b) [MOD n] := h
  have h2 : a ≡ b [MOD n] := Nat.ModEq.add_left_cancel' i h1
  have h3 : a % n = b % n := h2
  rwa [Nat.mod_eq_of_lt ha, Nat.mod_eq_of_lt hb] at h3

theorem getLastD_cases {α : Type} (l : List α) (d : α) :
    l.getLastD d = d ∨ l.getLastD d ∈ l := by
  induction l generalizing d with
  | nil => exact Or.inl rfl
  | cons b t ih =>
      rw [List.getLastD_cons]
      rcases ih b with h | h
      · rw [h]; exact Or.inr (List.mem_cons_self b t)
      · exact Or.inr (List.mem_cons_of_mem b h)

theorem getLastD_irrel {α : Type} {l : List α} (h : l ≠ []) (a b : α) :
    l.getLastD a = l.getLastD b := by
  cases l with
  | nil => exact absurd rfl h
  | cons x t => rw [List.getLastD_cons, List.getLastD_cons]

/-! ### Characterisation of the neighbor-discovery loop -/

theorem discover_spec (l : List ℕ) : ∀ (v : Finset ℕ) (q : List ℕ),
    ∃ new : List ℕ,
      discover v q l = (v ∪ new.toFinset, q ++ new) ∧
      new.Nodup ∧ (∀ x ∈ new, x ∈ l ∧ x ∉ v) ∧ (∀ y ∈ l, y ∈ v ∨ y ∈ new) := by
  induction l with
  | nil =>
      intro v q
      exact ⟨[], by simp [discover], by simp, by simp, by simp⟩
  | cons n ns ih =>
      intro v q
      by_cases h : n ∈ v
      · obtain ⟨new, h1, h2, h3, h4⟩ := ih v q
        refine ⟨new, by simpa [discover, h] using h1, h2, ?_, ?_⟩
        · exact fun x hx => ⟨List.mem_cons_of_mem n (h3 x hx).1, (h3 x hx).2⟩
        · intro y hy
          rcases List.mem_cons.mp hy with rfl | hy'
          · exact Or.inl h
          · exact h4 y hy'
      · obtain ⟨new, h1, h2, h3, h4⟩ := ih (insert n v) (q ++ [n])
        refine ⟨n :: new, ?_, ?_, ?_, ?_⟩
        · have : discover v q (n :: ns) = discover (insert n v) (q ++ [n]) ns := by
            simp [discover, h]
          rw [this, h1, Prod.mk.injEq]
          refine ⟨?_, by simp⟩
          simp only [List.toFinset_cons]
          ext x; simp
        · refine List.nodup_cons.mpr ⟨?_, h2⟩
          intro hn
          exact (h3 n hn).2 (Finset.mem_insert_self n v)
        · intro x hx
          rcases List.mem_cons.mp hx with rfl | hx'
          · exact ⟨List.mem_cons_self x ns, h⟩
          · refine ⟨List.mem_cons_of_mem n (h3 x hx').1, fun hv => ?_⟩
            exact (h3 x hx').2 (Finset.mem_insert_of_mem hv)
        · intro y hy
          rcases List.mem_cons.mp hy with rfl | hy'
          · exact Or.inr (List.mem_cons_self y new)
          · rcases h4 y hy' with hv | hn
            · rcases Finset.mem_insert.mp hv with rfl | hv'
              · exact Or.inr (List.mem_cons_self y new)
              · exact Or.inl hv'
            · exact Or.inr (List.mem_cons_of_mem n hn)

theorem discoverD_spec (l : List ℕ) : ∀ (v : Finset ℕ) (q : List (ℕ × ℕ)) (d : ℕ),
    ∃ new : List ℕ,
      discoverD v q d l = (v ∪ new.toFinset, q ++ new.map (fun m => (m, d + 1))) ∧
      new.Nodup ∧ (∀ x ∈ new, x ∈ l ∧ x ∉ v) ∧ (∀ y ∈ l, y ∈ v ∨ y ∈ new) := by
  induction l with
  | nil =>
      intro v q d
      exact ⟨[], by simp [discoverD], by simp, by simp, by simp⟩
  | cons n ns ih =>
      intro v q d
      by_cases h : n ∈ v
      · obtain ⟨new, h1, h2, h3, h4⟩ := ih v q d
        refine ⟨new, by simpa [discoverD, h] using h1, h2, ?_, ?_⟩
        · exact fun x hx => ⟨List.mem_cons_of_mem n (h3 x hx).1, (h3 x hx).2⟩
        · intro y hy
          rcases List.mem_cons.mp hy with rfl | hy'
          · exact Or.inl h
          · exact h4 y hy'
      · obtain ⟨new, h1, h2, h3, h4⟩ := ih (insert n v) (q ++ [(n, d + 1)]) d
        refine ⟨n :: new, ?_, ?_, ?_, ?_⟩
        · have : discoverD v q d (n :: ns) = discoverD (insert n v) (q ++ [(n, d + 1)]) d ns := by
            simp [discoverD, h]
          rw [this, h1, Prod.mk.injEq]
          refine ⟨?_, by simp⟩
          simp only [List.toFinset_cons]
          ext x; simp
        · refine List.nodup_cons.mpr ⟨?_, h2⟩
          intro hn
          exact (h3 n hn).2 (Finset.mem_insert_self n v)
        · intro x hx
          rcases List.mem_cons.mp hx with rfl | hx'
          · exact ⟨List.mem_cons_self x ns, h⟩
          · refine ⟨List.mem_cons_of_mem n (h3 x hx').1, fun hv => ?_⟩
            exact (h3 x hx').2 (Finset.mem_insert_of_mem hv)
        · intro y hy
          rcases List.mem_cons.mp hy with rfl | hy'
          · exact Or.inr (List.mem_cons_self y new)
          · rcases h4 y hy' with hv | hn
            · rcases Finset.mem_insert.mp hv with rfl | hv'
              · exact Or.inr (List.mem_cons_self y new)
              · exact Or.inl hv'
            · exact Or.inr (List.mem_cons_of_mem n hn)

theorem discoverD_fst (l : List ℕ) : ∀ (v : Finset ℕ) (q : List (ℕ × ℕ)) (d : ℕ),
    (discoverD v q d l).1 = (discover v (q.map Prod.fst) l).1 ∧
    (discoverD v q d l).2.map Prod.fst = (discover v (q.map Prod.fst) l).2 := by
  induction l with
  | nil => intro v q d; simp [discover, discoverD]
  | cons n ns ih =>
      intro v q d
      by_cases h : n ∈ v
      · simpa [discover, discoverD, h] using ih v q d
      · have h1 := ih (insert n v) (q ++ [(n, d + 1)]) d
        have h2 : (q ++ [(n, d + 1)]).map Prod.fst = q.map Prod.fst ++ [n] := by simp
        rw [h2] at h1
        simpa [discover, discoverD, h] using h1

theorem discover_sub (l : List ℕ) : ∀ (v : Finset ℕ) (q : List ℕ), v ⊆ (discover v q l).1 := by
  induction l with
  | nil => intro v q; simp [discover]
  | cons n ns ih =>
      intro v q
      by_cases h : n ∈ v
      · simpa [discover, h] using ih v q
      · have := ih (insert n v) (q ++ [n])
        refine subset_trans ?_ (by simpa [discover, h] using this)
        exact Finset.subset_insert n v

/-! ### One-step unfolding of the traversal loops -/

theorem bfsGenAux_cons (G : Graph) (fuel : ℕ) (v : Finset ℕ) (n : ℕ) (rest : List ℕ) :
    bfsGenAux G (fuel + 1) v (n :: rest) =
      (discover v rest (G.adj n)).1 ::
        bfsGenAux G fuel (discover v rest (G.adj n)).1 (discover v rest (G.adj n)).2 := rfl

theorem bfsGenAux_nil (G : Graph) (fuel : ℕ) (v : Finset ℕ) :
    bfsGenAux G fuel v [] = [] := by cases fuel <;> rfl

theorem bfsSpreadAux_cons (G : Graph) (fuel : ℕ) (v : Finset ℕ) (n d : ℕ)
    (rest levels : List (ℕ × ℕ)) :
    bfsSpreadAux G (fuel + 1) v ((n, d) :: rest) levels =
      bfsSpreadAux G fuel (discoverD v rest d (G.adj n)).1 (discoverD v rest d (G.adj n)).2
        (bumpLevel levels d) := rfl

theorem bfsSpreadAux_nil (G : Graph) (fuel : ℕ) (v : Finset ℕ) (levels : List (ℕ × ℕ)) :
    bfsSpreadAux G fuel v [] levels = levels := by cases fuel <;> rfl

theorem bfsTraceAux_cons (G : Graph) (fuel : ℕ) (v : Finset ℕ) (n d : ℕ)
    (rest : List (ℕ × ℕ)) :
    bfsTraceAux G (fuel + 1) v ((n, d) :: rest) =
      (n, d) :: bfsTraceAux G fuel (discoverD v rest d (G.adj n)).1
        (discoverD v rest d (G.adj n)).2 := rfl

theorem bfsTraceAux_nil (G : Graph) (fuel : ℕ) (v : Finset ℕ) :
    bfsTraceAux G fuel v [] = [] := by cases fuel <;> rfl

/-! ### Invariants of the generator loop -/

theorem bfsGenAux_sub (G : Graph) : ∀ (fuel : ℕ) (v : Finset ℕ) (q : List ℕ),
    ∀ s ∈ bfsGenAux G fuel v q, v ⊆ s := by
  intro fuel
  induction fuel with
  | zero => intro v q s hs; simp [bfsGenAux] at hs
  | succ fuel ih =>
      intro v q s hs
      cases q with
      | nil => rw [bfsGenAux_nil] at hs; cases hs
      | cons node rest =>
          rw [bfsGenAux_cons] at hs
          rcases List.mem_cons.mp hs with rfl | h
          · exact discover_sub _ _ _
          · exact subset_trans (discover_sub _ _ _) (ih _ _ s h)

theorem bfsGenAux_chain (G : Graph) : ∀ (fuel : ℕ) (v : Finset ℕ) (q : List ℕ),
    List.Chain' (· ⊆ ·) (bfsGenAux G fuel v q) := by
  intro fuel
  induction fuel with
  | zero => intro v q; simp [bfsGenAux]
  | succ fuel ih =>
      intro v q
      cases q with
      | nil => rw [bfsGenAux_nil]; exact List.chain'_nil
      | cons node rest =>
          rw [bfsGenAux_cons]
          refine List.chain'_cons'.mpr ⟨?_, ih _ _⟩
          intro y hy
          exact bfsGenAux_sub G fuel _ _ y (List.mem_of_mem_head? hy)

theorem bfsGenAux_range (G : Graph) : ∀ (fuel : ℕ) (v : Finset ℕ) (q : List ℕ),
    v ⊆ Finset.range G.N → ∀ s ∈ bfsGenAux G fuel v q, s ⊆ Finset.range G.N := by
  intro fuel
  induction fuel with
  | zero => intro v q _ s hs; simp [bfsGenAux] at hs
  | succ fuel ih =>
      intro v q hv s hs
      cases q with
      | nil => rw [bfsGenAux_nil] at hs; cases hs
      | cons node rest =>
          obtain ⟨new, hd, hnd, hnew, hcov⟩ := discover_spec (G.adj node) v rest
          have hv2 : (discover v rest (G.adj node)).1 ⊆ Finset.range G.N := by
            rw [hd]
            refine Finset.union_subset hv ?_
            intro x hx
            rw [List.mem_toFinset] at hx
            exact Finset.mem_range.mpr (G.adj_lt node x (hnew x hx).1)
          rw [bfsGenAux_cons] at hs
          rcases List.mem_cons.mp hs with rfl | h
          · exact hv2
          · exact ih _ _ hv2 s h

theorem bfsGenAux_closure (G : Graph) (P : ℕ → Prop)
    (hP : ∀ a, P a → ∀ b ∈ G.adj a, P b) :
    ∀ (fuel : ℕ) (v : Finset ℕ) (q : List ℕ), (∀ x ∈ v, P x) → (∀ x ∈ q, P x) →
      ∀ s ∈ bfsGenAux G fuel v q, ∀ x ∈ s, P x := by
  intro fuel
  induction fuel with
  | zero => intro v q _ _ s hs; simp [bfsGenAux] at hs
  | succ fuel ih =>
      intro v q hv hq s hs
      cases q with
      | nil => rw [bfsGenAux_nil] at hs; cases hs
      | cons node rest =>
          obtain ⟨new, hd, hnd, hnew, hcov⟩ := discover_spec (G.adj node) v rest
          have hnode : P node := hq node (List.mem_cons_self node rest)
          have hv2 : ∀ x ∈ (discover v rest (G.adj node)).1, P x := by
            rw [hd]
            intro x hx
            rcases Finset.mem_union.mp hx with hx' | hx'
            · exact hv x hx'
            · exact hP node hnode x (hnew x (List.mem_toFinset.mp hx')).1
          have hq2 : ∀ x ∈ (discover v rest (G.adj node)).2, P x := by
            rw [hd]
            intro x hx
            rcases List.mem_append.mp hx with hx' | hx'
            · exact hq x (List.mem_cons_of_mem node hx')
            · exact hP node hnode x (hnew x hx').1
          rw [bfsGenAux_cons] at hs
          rcases List.mem_cons.mp hs with rfl | h
          · exact hv2
          · exact ih _ _ hv2 hq2 s h

theorem bfsGenAux_main (G : Graph) : ∀ (fuel : ℕ) (v : Finset ℕ) (q : List ℕ),
    q.length + (Finset.range G.N \ v).card ≤ fuel →
    (∀ x ∈ q, x ∈ v) →
    (∀ x ∈ v, x ∈ q ∨ ∀ y ∈ G.adj x, y ∈ v) →
    (bfsGenAux G fuel v q).length + v.card =
        q.length + ((bfsGenAux G fuel v q).getLastD v).card ∧
    v ⊆ (bfsGenAux G fuel v q).getLastD v ∧
    (∀ x ∈ (bfsGenAux G fuel v q).getLastD v, ∀ y ∈ G.adj x,
        y ∈ (bfsGenAux G fuel v q).getLastD v) := by
  intro fuel
  induction fuel with
  | zero =>
      intro v q hfuel hq hcl
      have hq0 : q = [] := by
        cases q with
        | nil => rfl
        | cons a t => simp at hfuel
      subst hq0
      refine ⟨rfl, subset_rfl, ?_⟩
      intro x hx y hy
      rcases hcl x hx with h | h
      · cases h
      · exact h y hy
  | succ fuel ih =>
      intro v q hfuel hq hcl
      cases q with
      | nil =>
          rw [bfsGenAux_nil]
          refine ⟨rfl, subset_rfl, ?_⟩
          intro x hx y hy
          rcases hcl x hx with h | h
          · cases h
          · exact h y hy
      | cons node rest =>
          obtain ⟨new, hd, hnd, hnew, hcov⟩ := discover_spec (G.adj node) v rest
          have hvsub : v ⊆ (discover v rest (G.adj node)).1 := discover_sub _ _ _
          have hnewsub : new.toFinset ⊆ Finset.range G.N \ v := by
            intro x hx
            rw [List.mem_toFinset] at hx
            exact Finset.mem_sdiff.mpr
              ⟨Finset.mem_range.mpr (G.adj_lt node x (hnew x hx).1), (hnew x hx).2⟩
          have hdisj : Disjoint v new.toFinset := by
            rw [Finset.disjoint_left]
            intro x hx hx'
            exact (hnew x (List.mem_toFinset.mp hx')).2 hx
          have htfc : new.toFinset.card = new.length := List.toFinset_card_of_nodup hnd
          have hcard2 : (discover v rest (G.adj node)).1.card = v.card + new.length := by
            rw [hd]
            simp only
            rw [Finset.card_union_of_disjoint hdisj, htfc]
          have hsdiff : Finset.range G.N \ (discover v rest (G.adj node)).1 =
              (Finset.range G.N \ v) \ new.toFinset := by
            rw [hd]
            simp only
            ext x
            simp only [Finset.mem_sdiff, Finset.mem_union, List.mem_toFinset]
            tauto
          have hsub' : new.length ≤ (Finset.range G.N \ v).card := by
            calc new.length = new.toFinset.card := htfc.symm
            _ ≤ _ := Finset.card_le_card hnewsub
          have hsdc : (Finset.range G.N \ (discover v rest (G.adj node)).1).card =
              (Finset.range G.N \ v).card - new.length := by
            rw [hsdiff, Finset.card_sdiff hnewsub, htfc]
          have hq2len : (discover v rest (G.adj node)).2.length = rest.length + new.length := by
            rw [hd]
            simp
          have hfuel2 : (discover v rest (G.adj node)).2.length +
              (Finset.range G.N \ (discover v rest (G.adj node)).1).card ≤ fuel := by
            rw [hq2len, hsdc]
            simp only [List.length_cons] at hfuel
            omega
          have hq2mem : ∀ x ∈ (discover v rest (G.adj node)).2,
              x ∈ (discover v rest (G.adj node)).1 := by
            rw [hd]
            intro x hx
            rcases List.mem_append.mp hx with hx' | hx'
            · exact Finset.mem_union_left _ (hq x (List.mem_cons_of_mem node hx'))
            · exact Finset.mem_union_right _ (List.mem_toFinset.mpr hx')
          have hcl2 : ∀ x ∈ (discover v rest (G.adj node)).1,
              x ∈ (discover v rest (G.adj node)).2 ∨
              ∀ y ∈ G.adj x, y ∈ (discover v rest (G.adj node)).1 := by
            rw [hd]
            simp only
            intro x hx
            rcases Finset.mem_union.mp hx with hx' | hx'
            · rcases hcl x hx' with hxq | hxcl
              · rcases List.mem_cons.mp hxq with rfl | hxr
                · refine Or.inr ?_
                  intro y hy
                  rcases hcov y hy with h' | h'
                  · exact Finset.mem_union_left _ h'
                  · exact Finset.mem_union_right _ (List.mem_toFinset.mpr h')
                · exact Or.inl (List.mem_append.mpr (Or.inl hxr))
              · refine Or.inr ?_
                intro y hy
                exact Finset.mem_union_left _ (hxcl y hy)
            · exact Or.inl (List.mem_append.mpr (Or.inr (List.mem_toFinset.mp hx')))
          obtain ⟨ih1, ih2, ih3⟩ := ih _ _ hfuel2 hq2mem hcl2
          rw [bfsGenAux_cons, List.getLastD_cons]
          refine ⟨?_, subset_trans hvsub ih2, ih3⟩
          rw [hq2len] at ih1
          simp only [List.length_cons]
          omega

/-! ### Correspondence between the three traversal loops -/

theorem levelsTotal_bump (levels : List (ℕ × ℕ)) (d : ℕ) :
    levelsTotal (bumpLevel levels d) = levelsTotal levels + 1 := by
  induction levels with
  | nil => simp [bumpLevel, levelsTotal]
  | cons kv rest ih =>
      by_cases h : kv.1 = d
      · simp only [bumpLevel, if_pos h, levelsTotal, List.map_cons, List.sum_cons]
        omega
      · simp only [bumpLevel, if_neg h, levelsTotal, List.map_cons, List.sum_cons]
        simp only [levelsTotal] at ih
        omega

theorem spread_gen_total (G : Graph) : ∀ (fuel : ℕ) (v : Finset ℕ)
    (q levels : List (ℕ × ℕ)),
    levelsTotal (bfsSpreadAux G fuel v q levels) =
      levelsTotal levels + (bfsGenAux G fuel v (q.map Prod.fst)).length := by
  intro fuel
  induction fuel with
  | zero => intros; simp [bfsSpreadAux, bfsGenAux]
  | succ fuel ih =>
      intro v q levels
      cases q with
      | nil => simp [bfsSpreadAux_nil, bfsGenAux_nil]
      | cons nd rest =>
          obtain ⟨n, d⟩ := nd
          have hc := discoverD_fst (G.adj n) v rest d
          rw [bfsSpreadAux_cons, ih, levelsTotal_bump, hc.1, hc.2]
          rw [show ((n, d) :: rest).map Prod.fst = n :: rest.map Prod.fst from rfl,
            bfsGenAux_cons]
          simp only [List.length_cons]
          omega

theorem trace_gen_length (G : Graph) : ∀ (fuel : ℕ) (v : Finset ℕ) (q : List (ℕ × ℕ)),
    (bfsTraceAux G fuel v q).length = (bfsGenAux G fuel v (q.map Prod.fst)).length := by
  intro fuel
  induction fuel with
  | zero => intros; simp [bfsTraceAux, bfsGenAux]
  | succ fuel ih =>
      intro v q
      cases q with
      | nil => simp [bfsTraceAux_nil, bfsGenAux_nil]
      | cons nd rest =>
          obtain ⟨n, d⟩ := nd
          have hc := discoverD_fst (G.adj n) v rest d
          rw [bfsTraceAux_cons, show ((n, d) :: rest).map Prod.fst = n :: rest.map Prod.fst
            from rfl, bfsGenAux_cons]
          simp only [List.length_cons]
          rw [ih, hc.1, hc.2]

/-! ### Reachability -/

/-- The step relation of a graph: `b` is a listed neighbor of `a`. -/
def adjRel (G : Graph) (a b : ℕ) : Prop := b ∈ G.adj a

theorem reach_mem_of_closed (G : Graph) (start : ℕ) {S : Finset ℕ}
    (hstart : start ∈ S) (hclosed : ∀ x ∈ S, ∀ y ∈ G.adj x, y ∈ S) :
    ∀ x, Relation.ReflTransGen (adjRel G) start x → x ∈ S := by
  intro x h
  induction h with
  | refl => exact hstart
  | tail h1 h2 ih => exact hclosed _ ih _ h2

/-! ### Depth monotonicity of the dequeue trace -/

/-- Invariant of a breadth-first queue: the depths along the queue form a
block of some depth `d` followed by a block of depth `d + 1`. -/
def IBlocks (q : List (ℕ × ℕ)) : Prop :=
  ∃ d a b, q.map Prod.snd = List.replicate a d ++ List.replicate b (d + 1)

theorem map_snd_pairs (new : List ℕ) (d : ℕ) :
    (new.map (fun m => (m, d))).map Prod.snd = List.replicate new.length d := by
  induction new with
  | nil => rfl
  | cons x t ih => simp [List.replicate_succ] at ih ⊢; exact ih

theorem bfsTraceAux_head (G : Graph) (fuel : ℕ) (v : Finset ℕ) (q : List (ℕ × ℕ)) :
    (bfsTraceAux G fuel v q).head? = none ∨ (bfsTraceAux G fuel v q).head? = q.head? := by
  cases fuel with
  | zero => exact Or.inl rfl
  | succ fuel =>
      cases q with
      | nil => exact Or.inl (by rw [bfsTraceAux_nil]; rfl)
      | cons nd rest =>
          obtain ⟨n, d⟩ := nd
          exact Or.inr (by rw [bfsTraceAux_cons]; rfl)

theorem trace_mono (G : Graph) : ∀ (fuel : ℕ) (v : Finset ℕ) (q : List (ℕ × ℕ)),
    IBlocks q →
    List.Chain' (fun x y => x.2 ≤ y.2) (bfsTraceAux G fuel v q) ∧
    (∀ x ∈ bfsTraceAux G fuel v q, ∀ p ∈ q.head?, p.2 ≤ x.2) := by
  intro fuel
  induction fuel with
  | zero => intro v q _; simp [bfsTraceAux]
  | succ fuel ih =>
      intro v q hq
      cases q with
      | nil => rw [bfsTraceAux_nil]; simp
      | cons nd rest =>
          obtain ⟨n, d⟩ := nd
          obtain ⟨new, hd, hnd, hnew, hcov⟩ := discoverD_spec (G.adj n) v rest d
          have hq2snd : ∃ a2 b2, (discoverD v rest d (G.adj n)).2.map Prod.snd =
              List.replicate a2 d ++ List.replicate b2 (d + 1) := by
            obtain ⟨d0, a, b, hab⟩ := hq
            simp only [List.map_cons] at hab
            cases a with
            | zero =>
                cases b with
                | zero =>
                    simp only [List.replicate_zero, List.nil_append] at hab
                    exact absurd hab (List.cons_ne_nil _ _)
                | succ b' =>
                    rw [List.replicate_succ] at hab
                    simp only [List.replicate_zero, List.nil_append, List.cons.injEq] at hab
                    obtain ⟨hdd, hrest⟩ := hab
                    refine ⟨b', new.length, ?_⟩
                    rw [hd]
                    simp only [List.map_append, map_snd_pairs, hrest, ← hdd]
            | succ a' =>
                rw [List.replicate_succ] at hab
                simp only [List.cons_append, List.cons.injEq] at hab
                obtain ⟨hdd, hrest⟩ := hab
                subst hdd
                refine ⟨a', b + new.length, ?_⟩
                rw [hd]
                simp only [List.map_append, map_snd_pairs, hrest]
                rw [List.replicate_add, List.append_assoc]
          have hq2bound : ∀ x ∈ (discoverD v rest d (G.adj n)).2, d ≤ x.2 := by
            obtain ⟨a2, b2, hab⟩ := hq2snd
            intro x hx
            have : x.2 ∈ (discoverD v rest d (G.adj n)).2.map Prod.snd :=
              List.mem_map_of_mem Prod.snd hx
            rw [hab] at this
            rcases List.mem_append.mp this with h' | h'
            · rw [List.eq_of_mem_replicate h']
            · rw [List.eq_of_mem_replicate h']; omega
          obtain ⟨ihc, ihb⟩ := ih (discoverD v rest d (G.adj n)).1
            (discoverD v rest d (G.adj n)).2 ⟨d, hq2snd⟩
          rw [bfsTraceAux_cons]
          constructor
          · refine List.chain'_cons'.mpr ⟨?_, ihc⟩
            intro y hy
            rcases bfsTraceAux_head G fuel (discoverD v rest d (G.adj n)).1
                (discoverD v rest d (G.adj n)).2 with hh | hh
            · rw [hh] at hy; cases hy
            · rw [hh] at hy
              exact hq2bound y (List.mem_of_mem_head? hy)
          · intro x hx p hp
            have hpd : p = (n, d) := by
              have h' : (n, d) = p := by simpa using hp
              exact h'.symm
            subst hpd
            rcases List.mem_cons.mp hx with rfl | hx'
            · exact le_refl _
            · cases hq2 : (discoverD v rest d (G.adj n)).2 with
              | nil =>
                  rw [hq2, bfsTraceAux_nil] at hx'
                  cases hx'
              | cons h2 t2 =>
                  have hh2 : d ≤ h2.2 := by
                    refine hq2bound h2 ?_
                    rw [hq2]
                    exact List.mem_cons_self h2 t2
                  have := ihb x hx' h2 (by rw [hq2]; rfl)
                  omega

/-! ### The histogram keys stay contiguous -/

theorem bumpLevel_keys_mem (levels : List (ℕ × ℕ)) (d : ℕ)
    (h : d ∈ levels.map Prod.fst) :
    (bumpLevel levels d).map Prod.fst = levels.map Prod.fst := by
  induction levels with
  | nil => cases h
  | cons kv rest ih =>
      by_cases hk : kv.1 = d
      · simp [bumpLevel, hk]
      · simp only [List.map_cons] at h
        rcases List.mem_cons.mp h with h' | h'
        · exact absurd h'.symm hk
        · simp [bumpLevel, hk, ih h']

theorem bumpLevel_keys_new (levels : List (ℕ × ℕ)) (d : ℕ)
    (h : d ∉ levels.map Prod.fst) :
    (bumpLevel levels d).map Prod.fst = levels.map Prod.fst ++ [d] := by
  induction levels with
  | nil => simp [bumpLevel]
  | cons kv rest ih =>
      simp only [List.map_cons] at h
      have hk : kv.1 ≠ d := fun hh => h (hh ▸ List.mem_cons_self _ _)
      have hr : d ∉ rest.map Prod.fst := fun hh => h (List.mem_cons_of_mem _ hh)
      simp [bumpLevel, hk, ih hr]

theorem bumpLevel_pos (levels : List (ℕ × ℕ)) (d : ℕ)
    (h : ∀ kv ∈ levels, 1 ≤ kv.2) : ∀ kv ∈ bumpLevel levels d, 1 ≤ kv.2 := by
  induction levels with
  | nil =>
      intro kv hkv
      simp only [bumpLevel, List.mem_singleton] at hkv
      rw [hkv]
  | cons kv0 rest ih =>
      intro kv hkv
      by_cases hk : kv0.1 = d
      · simp only [bumpLevel, if_pos hk] at hkv
        rcases List.mem_cons.mp hkv with rfl | h'
        · simp
        · exact h kv (List.mem_cons_of_mem _ h')
      · simp only [bumpLevel, if_neg hk] at hkv
        rcases List.mem_cons.mp hkv with rfl | h'
        · exact h kv (List.mem_cons_self _ _)
        · exact ih (fun x hx => h x (List.mem_cons_of_mem _ hx)) kv h'

theorem bumpLevel_len_ge (levels : List (ℕ × ℕ)) (d : ℕ) :
    levels.length ≤ (bumpLevel levels d).length := by
  induction levels with
  | nil => simp [bumpLevel]
  | cons kv rest ih =>
      by_cases hk : kv.1 = d
      · simp [bumpLevel, hk]
      · simp only [bumpLevel, if_neg hk, List.length_cons]
        omega

theorem spread_levels_inv (G : Graph) : ∀ (fuel : ℕ) (v : Finset ℕ)
    (q levels : List (ℕ × ℕ)),
    levels.map Prod.fst = List.range levels.length →
    (∀ x ∈ q, x.2 ≤ levels.length) →
    (∀ kv ∈ levels, 1 ≤ kv.2) →
    (bfsSpreadAux G fuel v q levels).map Prod.fst =
      List.range (bfsSpreadAux G fuel v q levels).length ∧
    (∀ kv ∈ bfsSpreadAux G fuel v q levels, 1 ≤ kv.2) := by
  intro fuel
  induction fuel with
  | zero => intro v q levels h1 _ h3; exact ⟨h1, h3⟩
  | succ fuel ih =>
      intro v q levels h1 h2 h3
      cases q with
      | nil => rw [bfsSpreadAux_nil]; exact ⟨h1, h3⟩
      | cons nd rest =>
          obtain ⟨n, d⟩ := nd
          obtain ⟨new, hd, hnd, hnew, hcov⟩ := discoverD_spec (G.adj n) v rest d
          have hdle : d ≤ levels.length := h2 (n, d) (List.mem_cons_self _ _)
          rw [bfsSpreadAux_cons]
          rcases Nat.lt_or_ge d levels.length with hlt | hge
          · have hmem : d ∈ levels.map Prod.fst := by
              rw [h1]; exact List.mem_range.mpr hlt
            have hkeys : (bumpLevel levels d).map Prod.fst = levels.map Prod.fst :=
              bumpLevel_keys_mem levels d hmem
            have hlen : (bumpLevel levels d).length = levels.length := by
              have := congrArg List.length hkeys
              simpa using this
            refine ih _ _ _ (by rw [hkeys, hlen, h1]) ?_ (bumpLevel_pos levels d h3)
            rw [hd, hlen]
            intro x hx
            rcases List.mem_append.mp hx with hx' | hx'
            · exact h2 x (List.mem_cons_of_mem _ hx')
            · obtain ⟨m, hm, rfl⟩ := List.mem_map.mp hx'
              simpa using hlt
          · have hdeq : d = levels.length := le_antisymm hdle hge
            have hmem : d ∉ levels.map Prod.fst := by
              rw [h1, hdeq]; simp
            have hkeys : (bumpLevel levels d).map Prod.fst = levels.map Prod.fst ++ [d] :=
              bumpLevel_keys_new levels d hmem
            have hlen : (bumpLevel levels d).length = levels.length + 1 := by
              have := congrArg List.length hkeys
              simpa using this
            refine ih _ _ _ ?_ ?_ (bumpLevel_pos levels d h3)
            · rw [hkeys, hlen, h1, hdeq, List.range_succ]
            · rw [hd, hlen]
              intro x hx
              rcases List.mem_append.mp hx with hx' | hx'
              · have := h2 x (List.mem_cons_of_mem _ hx')
                omega
              · obtain ⟨m, hm, rfl⟩ := List.mem_map.mp hx'
                simp [hdeq]

theorem spread_len_mono (G : Graph) : ∀ (fuel : ℕ) (v : Finset ℕ)
    (q levels : List (ℕ × ℕ)),
    levels.length ≤ (bfsSpreadAux G fuel v q levels).length := by
  intro fuel
  induction fuel with
  | zero => intro v q levels; exact le_refl _
  | succ fuel ih =>
      intro v q levels
      cases q with
      | nil => rw [bfsSpreadAux_nil]
      | cons nd rest =>
          obtain ⟨n, d⟩ := nd
          rw [bfsSpreadAux_cons]
          exact le_trans (bumpLevel_len_ge levels d) (ih _ _ _)

/-! ### Builder lemmas -/

theorem rewireStep_card (p : ℚ) (E : Finset (ℕ × ℕ)) (uv : ℕ × ℕ) (draw : ℚ)
    (cands : List ℕ) : (rewireStep p E uv draw cands).card = E.card := by
  unfold rewireStep
  split_ifs with h
  · cases hf : cands.find? (fun w => decide (w ≠ uv.1 ∧ epair uv.1 w ∉ E)) with
    | none => rfl
    | some w =>
        have hw := List.find?_some hf
        have hw' : w ≠ uv.1 ∧ epair uv.1 w ∉ E := of_decide_eq_true hw
        have hmem : epair uv.1 uv.2 ∈ E := h.2
        have hne : epair uv.1 w ∉ E.erase (epair uv.1 uv.2) :=
          fun hc => hw'.2 (Finset.mem_of_mem_erase hc)
        rw [Finset.card_insert_of_not_mem hne, Finset.card_erase_of_mem hmem]
        have hpos : 1 ≤ E.card := Finset.card_pos.mpr ⟨_, hmem⟩
        omega
  · rfl

theorem rewireStep_zero (E : Finset (ℕ × ℕ)) (uv : ℕ × ℕ) (draw : ℚ)
    (cands : List ℕ) (hdraw : 0 ≤ draw) :
    rewireStep 0 E uv draw cands = E := by
  unfold rewireStep
  rw [if_neg]
  rintro ⟨h1, -⟩
  linarith

theorem rewire_foldl_card (p : ℚ) (rs : RandSource) :
    ∀ (l : List (ℕ × (ℕ × ℕ))) (E : Finset (ℕ × ℕ)),
      (l.foldl (fun E iuv => rewireStep p E iuv.2 (rs.draw iuv.1) (rs.cand iuv.1)) E).card
        = E.card := by
  intro l
  induction l with
  | nil => intro E; rfl
  | cons x t ih => intro E; rw [List.foldl_cons, ih, rewireStep_card]

theorem rewire_foldl_zero (rs : RandSource) :
    ∀ (l : List (ℕ × (ℕ × ℕ))) (E : Finset (ℕ × ℕ)),
      l.foldl (fun E iuv => rewireStep 0 E iuv.2 (rs.draw iuv.1) (rs.cand iuv.1)) E = E := by
  intro l
  induction l with
  | nil => intro E; rfl
  | cons x t ih =>
      intro E
      rw [List.foldl_cons, rewireStep_zero _ _ _ _ (rs.draw_nonneg _)]
      exact ih E

theorem validate_none_iff (c : RewireConfig) :
    validate c = none ↔ (4 ≤ c.population ∧ 2 ∣ c.baseDegree ∧ 2 ≤ c.baseDegree ∧
      c.baseDegree < c.population ∧ 0 ≤ c.rewireProbability ∧ c.rewireProbability ≤ 1) := by
  unfold validate
  split_ifs with h1 h2 h3 <;> simp_all

theorem build_ok {c : RewireConfig} {rs : RandSource} {g : BGraph}
    (h : build c rs = Except.ok g) :
    validate c = none ∧ g.N = c.population ∧
    g.edges = ((ringEdgeList c.population c.baseDegree).enum).foldl
      (fun E iuv => rewireStep c.rewireProbability E iuv.2 (rs.draw iuv.1) (rs.cand iuv.1))
      (ringEdges c.population c.baseDegree) := by
  unfold build at h
  cases hv : validate c with
  | some err =>
      rw [hv] at h
      exact absurd h (by simp)
  | none =>
      rw [hv] at h
      injection h with h2
      subst h2
      exact ⟨rfl, rfl, rfl⟩

theorem ringEdges_card {n k : ℕ} (hk : 2 ∣ k) (h2 : 2 ≤ k) (hkn : k < n) :
    (ringEdges n k).card = n * k / 2 := by
  unfold ringEdges
  rw [Finset.card_image_of_injOn, Finset.card_product, Finset.card_range, Finset.card_range]
  · rw [Nat.mul_div_assoc n hk, Nat.mul_comm n (k / 2)]
  · rintro ⟨j, i⟩ hji ⟨j', i'⟩ hji' heq
    simp only [Finset.coe_product, Set.mem_prod, Finset.mem_coe, Finset.mem_range] at hji hji'
    obtain ⟨hj, hi⟩ := hji
    obtain ⟨hj', hi'⟩ := hji'
    simp only at heq
    rcases epair_eq_iff.mp heq with ⟨e1, e2⟩ | ⟨e1, e2⟩
    · have h1 : j + 1 < n := by omega
      have h1' : j' + 1 < n := by omega
      rw [e1] at e2
      have hjj := add_mod_inj h1 h1' e2
      simp only [Prod.mk.injEq]
      exact ⟨by omega, e1⟩
    · exfalso
      have m1 : Nat.ModEq n i' (i + (j + 1)) := by
        rw [← e2]
        exact Nat.mod_modEq _ n
      have m2 : Nat.ModEq n i (i' + (j' + 1)) := by
        rw [e1]
        exact Nat.mod_modEq _ n
      have m3 : Nat.ModEq n i (i + (j + 1) + (j' + 1)) :=
        m2.trans (Nat.ModEq.add_right (j' + 1) m1)
      have m4 : Nat.ModEq n (i + 0) (i + ((j + 1) + (j' + 1))) := by
        simpa [Nat.add_assoc] using m3
      have m5 : Nat.ModEq n 0 ((j + 1) + (j' + 1)) := Nat.ModEq.add_left_cancel' i m4
      have hdvd : n ∣ (j + 1) + (j' + 1) := (Nat.modEq_zero_iff_dvd).mp m5.symm
      have hle := Nat.le_of_dvd (by omega) hdvd
      omega

theorem ringEdges_mem_iff {n k i m : ℕ} (hn : 0 < n) (hkn : k < n) (hi : i < n) :
    epair i m ∈ ringEdges n k ↔
      ∃ j, 1 ≤ j ∧ j ≤ k / 2 ∧ (m = (i + j) % n ∨ m = (i + (n - j)) % n) := by
  unfold ringEdges
  rw [Finset.mem_image]
  constructor
  · rintro ⟨⟨j, i'⟩, hmem, heq⟩
    rw [Finset.mem_product, Finset.mem_range, Finset.mem_range] at hmem
    obtain ⟨hj, hi'⟩ := hmem
    simp only at heq
    rcases epair_eq_iff.mp heq with ⟨e1, e2⟩ | ⟨e1, e2⟩
    · refine ⟨j + 1, by omega, by omega, Or.inl ?_⟩
      rw [← e2, e1]
    · refine ⟨j + 1, by omega, by omega, Or.inr ?_⟩
      rw [← e1, ← e2, Nat.mod_add_mod]
      have harith : i' + (j + 1) + (n - (j + 1)) = i' + n := by omega
      rw [harith, Nat.add_mod_right, Nat.mod_eq_of_lt hi']
  · rintro ⟨j, hj1, hj2, hm | hm⟩
    · refine ⟨(j - 1, i), ?_, ?_⟩
      · rw [Finset.mem_product, Finset.mem_range, Finset.mem_range]
        omega
      · simp only
        rw [show j - 1 + 1 = j by omega, ← hm]
    · refine ⟨(j - 1, m), ?_, ?_⟩
      · rw [Finset.mem_product, Finset.mem_range, Finset.mem_range]
        refine ⟨by omega, ?_⟩
        rw [hm]
        exact Nat.mod_lt _ hn
      · simp only
        rw [show j - 1 + 1 = j by omega]
        have hmj : (m + j) % n = i := by
          rw [hm, Nat.mod_add_mod]
          have harith : i + (n - j) + j = i + n := by omega
          rw [harith, Nat.add_mod_right, Nat.mod_eq_of_lt hi]
        rw [hmj, epair_comm]

theorem ringNbr_card {n k i : ℕ} (hn : 4 ≤ n) (hdvd : 2 ∣ k) (h2 : 2 ≤ k)
    (hkn : k < n) (hi : i < n) :
    ((Finset.range n).filter (fun m => epair i m ∈ ringEdges n k)).card = k := by
  have hn0 : 0 < n := by omega
  have hset : (Finset.range n).filter (fun m => epair i m ∈ ringEdges n k) =
      ((Finset.range (k / 2)) ×ˢ (Finset.univ : Finset Bool)).image
        (fun jb => cond jb.2 ((i + (jb.1 + 1)) % n) ((i + (n - (jb.1 + 1))) % n)) := by
    ext m
    rw [Finset.mem_filter, Finset.mem_range, ringEdges_mem_iff hn0 hkn hi, Finset.mem_image]
    constructor
    · rintro ⟨hm, j, hj1, hj2, hmm | hmm⟩
      · refine ⟨(j - 1, true), ?_, ?_⟩
        · rw [Finset.mem_product, Finset.mem_range]
          exact ⟨by omega, Finset.mem_univ _⟩
        · simp only [Bool.cond_true]
          rw [show j - 1 + 1 = j by omega, ← hmm]
      · refine ⟨(j - 1, false), ?_, ?_⟩
        · rw [Finset.mem_product, Finset.mem_range]
          exact ⟨by omega, Finset.mem_univ _⟩
        · simp only [Bool.cond_false]
          rw [show j - 1 + 1 = j by omega, ← hmm]
    · rintro ⟨⟨j, b⟩, hmem, heq⟩
      rw [Finset.mem_product, Finset.mem_range] at hmem
      obtain ⟨hj, -⟩ := hmem
      cases b
      · simp only [Bool.cond_false] at heq
        refine ⟨?_, j + 1, by omega, by omega, Or.inr heq.symm⟩
        rw [← heq]
        exact Nat.mod_lt _ hn0
      · simp only [Bool.cond_true] at heq
        refine ⟨?_, j + 1, by omega, by omega, Or.inl heq.symm⟩
        rw [← heq]
        exact Nat.mod_lt _ hn0
  rw [hset, Finset.card_image_of_injOn, Finset.card_product, Finset.card_range]
  · simp only [Finset.card_univ, Fintype.card_bool]
    omega
  · rintro ⟨j, bj⟩ hj ⟨j', bj'⟩ hj' heq
    simp only [Finset.coe_product, Set.mem_prod, Finset.mem_coe, Finset.mem_range] at hj hj'
    obtain ⟨hjlt, -⟩ := hj
    obtain ⟨hjlt', -⟩ := hj'
    have hb1 : j + 1 < n := by omega
    have hb2 : j' + 1 < n := by omega
    have hb3 : n - (j + 1) < n := by omega
    have hb4 : n - (j' + 1) < n := by omega
    cases bj <;> cases bj' <;>
      simp only [Bool.cond_false, Bool.cond_true] at heq <;>
      simp only [Prod.mk.injEq]
    · have := add_mod_inj hb3 hb4 heq
      exact ⟨by omega, trivial⟩
    · exfalso
      have := add_mod_inj hb3 hb2 heq
      omega
    · exfalso
      have := add_mod_inj hb1 hb4 heq
      omega
    · have := add_mod_inj hb1 hb2 heq
      exact ⟨by omega, trivial⟩
/-! ### Bridging lemmas for the top-level entry points -/

theorem bfs_generator_ne_nil (G : Graph) (start : ℕ) : bfs_generator G start ≠ [] := by
  unfold bfs_generator
  rw [bfsGenAux_cons]
  exact List.cons_ne_nil _ _

theorem bfs_generator_main (G : Graph) (start : ℕ) :
    (bfs_generator G start).length + 1 =
      1 + ((bfs_generator G start).getLastD {start}).card ∧
    {start} ⊆ (bfs_generator G start).getLastD {start} ∧
    (∀ x ∈ (bfs_generator G start).getLastD {start}, ∀ y ∈ G.adj x,
      y ∈ (bfs_generator G start).getLastD {start}) := by
  have hfuel : ([start] : List ℕ).length +
      (Finset.range G.N \ ({start} : Finset ℕ)).card ≤ G.N + 1 := by
    have h1 : (Finset.range G.N \ ({start} : Finset ℕ)).card ≤ G.N := by
      calc (Finset.range G.N \ ({start} : Finset ℕ)).card
          ≤ (Finset.range G.N).card := Finset.card_le_card Finset.sdiff_subset
        _ = G.N := Finset.card_range _
    simp only [List.length_singleton]
    omega
  have hq : ∀ x ∈ ([start] : List ℕ), x ∈ ({start} : Finset ℕ) := by
    intro x hx
    simp at hx
    simp [hx]
  have hcl : ∀ x ∈ ({start} : Finset ℕ), x ∈ ([start] : List ℕ) ∨
      ∀ y ∈ G.adj x, y ∈ ({start} : Finset ℕ) := by
    intro x hx
    left
    simp at hx
    simp [hx]
  have h := bfsGenAux_main G (G.N + 1) {start} [start] hfuel hq hcl
  have hcard : ({start} : Finset ℕ).card = 1 := Finset.card_singleton start
  refine ⟨?_, h.2.1, h.2.2⟩
  have h1 := h.1
  rw [hcard] at h1
  simpa using h1

theorem nbrList_sorted (g : BGraph) (i : ℕ) : List.Sorted (· < ·) (g.toGraph.adj i) := by
  unfold BGraph.toGraph BGraph.nbrList
  simp only
  exact List.Pairwise.sublist (List.filter_sublist _) (List.pairwise_lt_range g.N)

/-! ### The claims -/

/-- Claim C1: for every graph (in particular every graph built from a valid
config) traversed from the common start node 0, the sum of all per-depth
counts of the histogram traversal `bfs_spread` equals the size of the final
cumulative visited set yielded by the snapshot traversal `bfs_generator`. -/
theorem c1_total_count_agreement (G : Graph) :
    levelsTotal (bfs_spread G) = (finalVisited G 0).card := by
  have hs := spread_gen_total G (G.N + 1) {0} [(0, 0)] []
  have hmap : ([((0 : ℕ), (0 : ℕ))].map Prod.fst) = [0] := rfl
  rw [hmap] at hs
  have hmain := (bfs_generator_main G 0).1
  have hnn : bfs_generator G 0 ≠ [] := bfs_generator_ne_nil G 0
  unfold finalVisited
  rw [getLastD_irrel hnn ∅ {0}]
  unfold bfs_spread
  rw [hs]
  unfold bfs_generator at hmain ⊢
  simp only [levelsTotal, List.map_nil, List.sum_nil]
  omega

/-- Claim C2 counterexample: it is not the case that between one snapshot and
the next exactly one node is newly added.  On the star graph, the very first
snapshot already contains the start node and both of its neighbors, and the
later snapshots add nothing. -/
theorem c2_counterexample :
    ¬ (∀ (G : Graph) (start i : ℕ),
        i + 1 < (bfs_generator G start).length →
        (((bfs_generator G start).getD (i + 1) ∅) \
          ((bfs_generator G start).getD i ∅)).card = 1) := by
  intro h
  have h2 := h starG 0 0 (by decide)
  revert h2
  decide

/-- Claim C2 (amended): the discovery stream yields exactly one snapshot per
processed node, so its length equals the number of discovered nodes (the size
of the final snapshot) and is bounded by the node count; between consecutive
snapshots the newly added nodes are the (zero or more) neighbors newly
discovered while processing one node, not necessarily exactly one. -/
theorem c2_snapshot_count (G : Graph) (start : ℕ) (h : start < G.N) :
    (bfs_generator G start).length = (finalVisited G start).card ∧
    (bfs_generator G start).length ≤ G.N := by
  have hmain := (bfs_generator_main G start).1
  have hnn := bfs_generator_ne_nil G start
  have hstart : ({start} : Finset ℕ) ⊆ Finset.range G.N := by
    intro x hx
    simp at hx
    subst hx
    exact Finset.mem_range.mpr h
  have hsub : (bfs_generator G start).getLastD {start} ⊆ Finset.range G.N := by
    rcases getLastD_cases (bfs_generator G start) ({start} : Finset ℕ) with he | hm
    · rw [he]; exact hstart
    · exact bfsGenAux_range G (G.N + 1) {start} [start] hstart _ hm
  have hcard : ((bfs_generator G start).getLastD {start}).card ≤ G.N := by
    calc ((bfs_generator G start).getLastD {start}).card
        ≤ (Finset.range G.N).card := Finset.card_le_card hsub
      _ = G.N := Finset.card_range _
  constructor
  · unfold finalVisited
    rw [getLastD_irrel hnn ∅ {start}]
    omega
  · omega

/-- Witness for the amended claim C2, on the star graph. -/
theorem c2_snapshot_count_witness :
    0 < starG.N ∧ ((bfs_generator starG 0).length = (finalVisited starG 0).card ∧
      (bfs_generator starG 0).length ≤ starG.N) :=
  ⟨by decide, c2_snapshot_count starG 0 (by decide)⟩

/-- Claim C3: the dequeue trace of the stream has non-decreasing BFS depths
(and has exactly one entry per yielded snapshot); the final snapshot consists
exactly of the nodes reachable from the start node (its connected component,
the adjacency being symmetric); no node outside that component appears in any
snapshot; and an isolated start node yields the single snapshot containing
only the start node. -/
theorem c3_depth_order_and_component (G : Graph) (start : ℕ)
    (hsym : ∀ a b, adjRel G a b ↔ adjRel G b a) :
    List.Chain' (fun x y => x.2 ≤ y.2) (bfsTrace G start) ∧
    (bfsTrace G start).length = (bfs_generator G start).length ∧
    (∀ x, x ∈ finalVisited G start ↔ Relation.ReflTransGen (adjRel G) start x) ∧
    (∀ s ∈ bfs_generator G start, ∀ x ∈ s, Relation.ReflTransGen (adjRel G) start x) ∧
    (G.adj start = [] → bfs_generator G start = [{start}]) := by
  have hblocks : IBlocks [(start, 0)] := ⟨0, 1, 0, by simp⟩
  have hmain := bfs_generator_main G start
  have hnn := bfs_generator_ne_nil G start
  have hP : ∀ a, Relation.ReflTransGen (adjRel G) start a →
      ∀ b ∈ G.adj a, Relation.ReflTransGen (adjRel G) start b :=
    fun a ha b hb => Relation.ReflTransGen.tail ha hb
  have hv0 : ∀ x ∈ ({start} : Finset ℕ), Relation.ReflTransGen (adjRel G) start x := by
    intro x hx
    simp at hx
    subst hx
    exact Relation.ReflTransGen.refl
  have hq0 : ∀ x ∈ ([start] : List ℕ), Relation.ReflTransGen (adjRel G) start x := by
    intro x hx
    simp at hx
    subst hx
    exact Relation.ReflTransGen.refl
  have hsnap : ∀ s ∈ bfs_generator G start, ∀ x ∈ s,
      Relation.ReflTransGen (adjRel G) start x :=
    fun s hs => bfsGenAux_closure G _ hP (G.N + 1) {start} [start] hv0 hq0 s hs
  refine ⟨(trace_mono G (G.N + 1) {start} [(start, 0)] hblocks).1, ?_, ?_, hsnap, ?_⟩
  · exact trace_gen_length G (G.N + 1) {start} [(start, 0)]
  · intro x
    constructor
    · intro hx
      unfold finalVisited at hx
      rw [getLastD_irrel hnn ∅ {start}] at hx
      rcases getLastD_cases (bfs_generator G start) ({start} : Finset ℕ) with he | hm
      · rw [he] at hx
        exact hv0 x hx
      · exact hsnap _ hm x hx
    · intro hx
      unfold finalVisited
      rw [getLastD_irrel hnn ∅ {start}]
      refine reach_mem_of_closed G start ?_ hmain.2.2 x hx
      exact hmain.2.1 (Finset.mem_singleton_self start)
  · intro hiso
    unfold bfs_generator
    rw [bfsGenAux_cons, hiso]
    simp [discover, bfsGenAux_nil]

/-- Witness for claim C3, on the two-node path graph. -/
theorem c3_depth_order_witness :
    (∀ a b, adjRel pathG2 a b ↔ adjRel pathG2 b a) ∧
    (List.Chain' (fun x y => x.2 ≤ y.2) (bfsTrace pathG2 0) ∧
      (bfsTrace pathG2 0).length = (bfs_generator pathG2 0).length ∧
      (∀ x, x ∈ finalVisited pathG2 0 ↔ Relation.ReflTransGen (adjRel pathG2) 0 x) ∧
      (∀ s ∈ bfs_generator pathG2 0, ∀ x ∈ s,
        Relation.ReflTransGen (adjRel pathG2) 0 x) ∧
      (pathG2.adj 0 = [] → bfs_generator pathG2 0 = [{0}])) := by
  have hsym : ∀ a b, adjRel pathG2 a b ↔ adjRel pathG2 b a := by
    intro a b
    rcases a with _ | _ | a <;> rcases b with _ | _ | b <;> simp [adjRel, pathG2]
  exact ⟨hsym, c3_depth_order_and_component pathG2 0 hsym⟩

/-- Claim C4: with rewiring probability 0 the builder produces exactly the
ring lattice — node `i` is adjacent to exactly the nodes `i ± j mod N` for
`1 ≤ j ≤ baseDegree / 2`, and every node has degree exactly `baseDegree`. -/
theorem c4_ring_lattice (c : RewireConfig) (rs : RandSource) (g : BGraph)
    (hp : c.rewireProbability = 0) (hok : build c rs = Except.ok g) :
    (∀ i < g.N, ∀ m, (epair i m ∈ g.edges ↔
        ∃ j, 1 ≤ j ∧ j ≤ c.baseDegree / 2 ∧
          (m = (i + j) % c.population ∨ m = (i + (c.population - j)) % c.population))) ∧
    (∀ i < g.N, (g.nbrFinset i).card = c.baseDegree) := by
  obtain ⟨hv, hN, hE⟩ := build_ok hok
  obtain ⟨hpop, hdvd, h2, hkn, -, -⟩ := (validate_none_iff c).mp hv
  have hzero : g.edges = ringEdges c.population c.baseDegree := by
    rw [hE, hp, rewire_foldl_zero]
  constructor
  · intro i hi m
    rw [hzero]
    rw [hN] at hi
    exact ringEdges_mem_iff (by omega) hkn hi
  · intro i hi
    unfold BGraph.nbrFinset
    rw [hzero, hN]
    rw [hN] at hi
    exact ringNbr_card hpop hdvd h2 hkn hi

/-- Witness for claim C4, on the smallest valid config (4 nodes, degree 2). -/
theorem c4_ring_lattice_witness :
    (cfg0.rewireProbability = 0 ∧ build cfg0 rs0 = Except.ok g0) ∧
    ((∀ i < g0.N, ∀ m, (epair i m ∈ g0.edges ↔
        ∃ j, 1 ≤ j ∧ j ≤ cfg0.baseDegree / 2 ∧
          (m = (i + j) % cfg0.population ∨
            m = (i + (cfg0.population - j)) % cfg0.population))) ∧
      (∀ i < g0.N, (g0.nbrFinset i).card = cfg0.baseDegree)) :=
  ⟨⟨rfl, by decide⟩, c4_ring_lattice cfg0 rs0 g0 rfl (by decide)⟩

/-- Claim C5: a violated configuration constraint makes `build` fail with
`InvalidParameter` (and no graph is returned); in particular an odd
`baseDegree`, or `baseDegree ≥ population`, is rejected, with the error
naming the `baseDegree` field whenever the population itself is admissible. -/
theorem c5_invalid_parameter (c : RewireConfig) (rs : RandSource) :
    (¬ (4 ≤ c.population ∧ 2 ∣ c.baseDegree ∧ 2 ≤ c.baseDegree ∧
        c.baseDegree < c.population ∧ 0 ≤ c.rewireProbability ∧
        c.rewireProbability ≤ 1) →
      ∃ f, build c rs = Except.error (BuildError.InvalidParameter f)) ∧
    ((¬ 2 ∣ c.baseDegree ∨ c.population ≤ c.baseDegree) →
      ∃ f, build c rs = Except.error (BuildError.InvalidParameter f) ∧
        (4 ≤ c.population → f = "baseDegree")) := by
  constructor
  · intro hviol
    cases hv : validate c with
    | none => exact absurd ((validate_none_iff c).mp hv) hviol
    | some e =>
        cases e with
        | InvalidParameter f =>
            refine ⟨f, ?_⟩
            unfold build
            rw [hv]
  · intro h
    by_cases h1 : 4 ≤ c.population
    · have h2 : ¬ (2 ∣ c.baseDegree ∧ 2 ≤ c.baseDegree ∧
          c.baseDegree < c.population) := by
        rcases h with h | h
        · exact fun hc => h hc.1
        · rintro ⟨-, -, hlt⟩
          omega
      refine ⟨"baseDegree", ?_, fun _ => rfl⟩
      unfold build validate
      rw [if_neg (not_not_intro h1), if_pos h2]
    · refine ⟨"population", ?_, fun hp => absurd hp h1⟩
      unfold build validate
      rw [if_pos h1]

/-- Witness for claim C5, on the spec's invalid scenario (population 10, odd
degree 3). -/
theorem c5_invalid_parameter_witness :
    (∃ f, build cfgOdd rs0 = Except.error (BuildError.InvalidParameter f)) ∧
    (∃ f, build cfgOdd rs0 = Except.error (BuildError.InvalidParameter f) ∧
      (4 ≤ cfgOdd.population → f = "baseDegree")) :=
  ⟨(c5_invalid_parameter cfgOdd rs0).1 (by decide),
    (c5_invalid_parameter cfgOdd rs0).2 (by decide)⟩

/-- Claim C6: every successfully built graph has exactly
`population * baseDegree / 2` edges; rewiring never changes the edge count. -/
theorem c6_edge_count (c : RewireConfig) (rs : RandSource) (g : BGraph)
    (hok : build c rs = Except.ok g) :
    g.edges.card = c.population * c.baseDegree / 2 := by
  obtain ⟨hv, hN, hE⟩ := build_ok hok
  obtain ⟨hpop, hdvd, h2, hkn, -, -⟩ := (validate_none_iff c).mp hv
  rw [hE, rewire_foldl_card, ringEdges_card hdvd h2 hkn]

/-- Witness for claim C6, on the smallest valid config. -/
theorem c6_edge_count_witness :
    build cfg0 rs0 = Except.ok g0 ∧
    g0.edges.card = cfg0.population * cfg0.baseDegree / 2 :=
  ⟨by decide, c6_edge_count cfg0 rs0 g0 (by decide)⟩

/-- Claim C7: for a (nonempty, connected) graph, the histogram of `bfs_spread`
has contiguous depth keys `0, …, D-1` with no gaps, starting at depth 0, and
every recorded depth has a count of at least 1. -/
theorem c7_histogram_contiguous (G : Graph) (hN : 0 < G.N)
    (hconn : ∀ x ∈ Finset.range G.N, Relation.ReflTransGen (adjRel G) 0 x) :
    ∃ D, 0 < D ∧ (bfs_spread G).map Prod.fst = List.range D ∧
      ∀ kv ∈ bfs_spread G, 1 ≤ kv.2 := by
  have hinv := spread_levels_inv G (G.N + 1) {0} [(0, 0)] [] (by simp) (by simp) (by simp)
  refine ⟨(bfs_spread G).length, ?_, hinv.1, hinv.2⟩
  unfold bfs_spread
  rw [bfsSpreadAux_cons]
  have hmono := spread_len_mono G G.N (discoverD {0} [] 0 (G.adj 0)).1
    (discoverD {0} [] 0 (G.adj 0)).2 (bumpLevel [] 0)
  have h1 : (bumpLevel ([] : List (ℕ × ℕ)) 0).length = 1 := rfl
  omega

/-- Witness for claim C7, on the two-node path graph. -/
theorem c7_histogram_witness :
    0 < pathG2.N ∧
    (∀ x ∈ Finset.range pathG2.N, Relation.ReflTransGen (adjRel pathG2) 0 x) ∧
    (∃ D, 0 < D ∧ (bfs_spread pathG2).map Prod.fst = List.range D ∧
      ∀ kv ∈ bfs_spread pathG2, 1 ≤ kv.2) := by
  have hconn : ∀ x ∈ Finset.range pathG2.N, Relation.ReflTransGen (adjRel pathG2) 0 x := by
    intro x hx
    have hx2 : x < 2 := by simpa [pathG2] using hx
    interval_cases x
    · exact Relation.ReflTransGen.refl
    · exact Relation.ReflTransGen.single (by simp [adjRel, pathG2])
  exact ⟨by decide, hconn, c7_histogram_contiguous pathG2 (by decide) hconn⟩

/-- Claim C8: the traversal visits neighbors in the fixed order supplied by
the graph's neighbor lists; for built graphs that order is ascending node id;
and both traversal outputs are functions of the graph data (node count and
neighbor lists) and the start node alone, so two calls on the same graph and
start produce identical output. -/
theorem c8_determinism (c : RewireConfig) (rs : RandSource) (g : BGraph)
    (hok : build c rs = Except.ok g) :
    (∀ i, List.Sorted (· < ·) (g.toGraph.adj i)) ∧
    (∀ (G G' : Graph) (s : ℕ), G.N = G'.N → G.adj = G'.adj →
      bfs_generator G s = bfs_generator G' s ∧ bfs_spread G = bfs_spread G') := by
  refine ⟨fun i => nbrList_sorted g i, ?_⟩
  intro G G' s hN hadj
  have hGG : G = G' := by
    cases G with
    | mk N adj lt =>
        cases G' with
        | mk N' adj' lt' =>
            simp only at hN hadj
            subst hN
            subst hadj
            rfl
  rw [hGG]
  exact ⟨rfl, rfl⟩

/-- Witness for claim C8. -/
theorem c8_determinism_witness :
    build cfg0 rs0 = Except.ok g0 ∧
    ((∀ i, List.Sorted (· < ·) (g0.toGraph.adj i)) ∧
      (∀ (G G' : Graph) (s : ℕ), G.N = G'.N → G.adj = G'.adj →
        bfs_generator G s = bfs_generator G' s ∧ bfs_spread G = bfs_spread G')) :=
  ⟨by decide, c8_determinism cfg0 rs0 g0 (by decide)⟩

/-- Claim C9: on the empty graph (population 0, start node 0 not a node of
the graph) both traversals fail with an error instead of silently returning
an empty sequence or an empty histogram. -/
theorem c9_empty_graph_fails :
    bfs_generatorE gEmpty 0 = Except.error "node not in graph" ∧
    bfs_spreadE gEmpty = Except.error "node not in graph" :=
  ⟨rfl, rfl⟩

/-- Claim C10: the snapshot sequence is monotone non-decreasing under set
inclusion, every snapshot contains the start node, and every snapshot is a
subset of the graph's node set.  (Snapshots are immutable values of the
embedding — `visited.copy()` in the source — so later consumption cannot
mutate an earlier snapshot.) -/
theorem c10_snapshot_invariants (G : Graph) (start : ℕ) (h : start < G.N) :
    List.Chain' (· ⊆ ·) (bfs_generator G start) ∧
    (∀ s ∈ bfs_generator G start, start ∈ s) ∧
    (∀ s ∈ bfs_generator G start, s ⊆ Finset.range G.N) := by
  refine ⟨bfsGenAux_chain G (G.N + 1) {start} [start], ?_, ?_⟩
  · intro s hs
    exact (bfsGenAux_sub G (G.N + 1) {start} [start] s hs)
      (Finset.mem_singleton_self start)
  · intro s hs
    refine bfsGenAux_range G (G.N + 1) {start} [start] ?_ s hs
    intro x hx
    simp at hx
    subst hx
    exact Finset.mem_range.mpr h

/-- Witness for claim C10, on the star graph. -/
theorem c10_snapshot_invariants_witness :
    0 < starG.N ∧ (List.Chain' (· ⊆ ·) (bfs_generator starG 0) ∧
      (∀ s ∈ bfs_generator starG 0, 0 ∈ s) ∧
      (∀ s ∈ bfs_generator starG 0, s ⊆ Finset.range starG.N)) :=
  ⟨by decide, c10_snapshot_invariants starG 0 (by decide)⟩


end SmallWorld
